import Mathlib

/-!
# Verification of the hottbox tensor-algebra core described by the tutorials

The repository under analysis consists of tutorial notebooks that exercise the
`hottbox` library's dense `Tensor` class (unfold / fold / mode-n product) and its
factorized representations (`TensorCPD`, `TensorTKD`, `TensorTT`).  The library
implementation itself is not part of the repository, so the operations below are
modelled from the specification's description of them, and checked against the
literal numeric fixtures printed in the notebooks.

Tensors are embedded as flat row-major lists of integers together with their
shape; matrices likewise.  Object identity (the in-place versus copying calling
convention) is modelled by a store of tensors addressed by natural-number
references.
-/

namespace Hottbox

/-- Modelled from the spec: a 2-D numeric array (factor matrices and the
matrices of `mode_n_product`), row-major flat data. -/
structure Mat where
  rows : ℕ
  cols : ℕ
  data : List ℤ
deriving DecidableEq

/-- Entry `(i, j)` of a matrix, row-major. -/
def Mat.entry (M : Mat) (i j : ℕ) : ℤ :=
  M.data.getD (i * M.cols + j) 0

/-- Modelled from the spec: matrix product (used by the fusion law for a
repeated mode: `X ×ₘ A ×ₘ B = X ×ₘ (B·A)`). -/
def matmul (B A : Mat) : Mat :=
  { rows := B.rows
    cols := A.cols
    data := (List.range (B.rows * A.cols)).map (fun p =>
      ∑ k ∈ Finset.range B.cols, B.entry (p / A.cols) k * A.entry k (p % A.cols)) }

/-- Modelled from the spec: the `DenseTensor` data model (`hottbox`'s `Tensor`
class, whose implementation is not part of this repository): a contiguous
row-major numeric payload, the current shape, and the internal `UnfoldState`
recording the original shape and the mode of the most recent `unfold`
(`none` when the tensor is in its folded, original state). -/
@[ext]
structure Tensor where
  data : List ℤ
  shape : List ℕ
  unfold_state : Option (List ℕ × ℕ)
deriving DecidableEq

instance : Inhabited Tensor := ⟨⟨[], [], none⟩⟩

/-- Number of modes of a tensor. -/
def Tensor.order (t : Tensor) : ℕ := t.shape.length

/-- Total element count: the product of the mode sizes. -/
def Tensor.size (t : Tensor) : ℕ := t.shape.prod

/-- Well-formedness: the flat element count of `data` equals `size`. -/
def Tensor.wf (t : Tensor) : Prop := t.data.length = t.shape.prod

/-- Index bijection underlying unfolding.  With the shape split at mode `m`
into prefix product `P`, mode size `K` and suffix product `Q`, an element at
row-major position `k * (P * Q) + a * Q + b` of the unfolded `K × (P*Q)` matrix
(row `k`, column `a * Q + b`: lexicographic over the remaining modes in their
original order) comes from row-major position `a * (K * Q) + k * Q + b` of the
original array. -/
def unfoldIdx (P K Q p : ℕ) : ℕ :=
  (p % (P * Q) / Q) * (K * Q) + p / (P * Q) * Q + p % Q

/-- Modelled from the spec: `Tensor.unfold(mode)` — rearranges elements so the
chosen mode's fibers become columns of a 2-D array with `shape[mode]` rows and
`size / shape[mode]` columns, the columns ordered lexicographically over the
remaining modes in their original order; records the pre-unfold shape and the
mode used, to support `fold`. -/
def Tensor.unfold (m : ℕ) (t : Tensor) : Tensor :=
  let P := (t.shape.take m).prod
  let K := t.shape.getD m 1
  let Q := (t.shape.drop (m + 1)).prod
  { data := (List.range (K * (P * Q))).map (fun p => t.data.getD (unfoldIdx P K Q p) 0)
    shape := [K, P * Q]
    unfold_state := some (t.shape, m) }

/-- Modelled from the spec: `Tensor.fold()` — reshapes a currently-unfolded
tensor back to the shape recorded at the most recent `unfold` call; a no-op on
a tensor that is already folded. -/
def Tensor.fold (t : Tensor) : Tensor :=
  match t.unfold_state with
  | none => t
  | some (os, m) =>
    let P := (os.take m).prod
    let K := os.getD m 1
    let Q := (os.drop (m + 1)).prod
    { data := (List.range os.prod).map (fun q => t.data.getD (unfoldIdx K P Q q) 0)
      shape := os
      unfold_state := none }

/-- Decode a row-major flat position into a multi-index for a given shape. -/
def unrank : List ℕ → ℕ → List ℕ
  | [], _ => []
  | _ :: rest, q => q / rest.prod :: unrank rest (q % rest.prod)

/-- Encode a multi-index into a row-major flat position for a given shape. -/
def rankIdx : List ℕ → List ℕ → ℕ
  | [], _ => 0
  | _ :: _, [] => 0
  | _ :: rest, i :: ix => i * rest.prod + rankIdx rest ix

/-- Modelled from the spec: `Tensor.mode_n_product(matrix, mode)` — each
mode-`m` fiber of the tensor is multiplied by the matrix
(`Y_(m) = matrix · X_(m)`); the result has `shape[m]` replaced by the matrix's
row count and is left in folded state. -/
def Tensor.mode_n_product (M : Mat) (m : ℕ) (t : Tensor) : Tensor :=
  let s := t.shape
  let s' := s.set m M.rows
  { data := (List.range s'.prod).map (fun q =>
      let ix := unrank s' q
      ∑ k ∈ Finset.range (s.getD m 0),
        M.entry (ix.getD m 0) k * t.data.getD (rankIdx s (ix.set m k)) 0)
    shape := s'
    unfold_state := none }

/-- Frobenius norm squared: the sum of the squared elements of the payload. -/
def sumSq (d : List ℤ) : ℤ := (d.map (fun x => x * x)).sum

/-- Modelled from the spec: `frob_norm` — square root of the sum of squared
elements, computed over the full array regardless of current unfold state. -/
noncomputable def Tensor.frob_norm (t : Tensor) : ℝ :=
  Real.sqrt ((sumSq t.data : ℤ) : ℝ)

/-- Modelled from the spec: the error taxonomy of the core (§7). -/
inductive TensorError where
  | InvalidModeError
  | DimensionMismatchError
  | ShapeMismatchError
  | NotUnfoldedError
deriving DecidableEq

/-- Modelled from the spec: `unfold` validated at the call boundary — fails
with `InvalidModeError` when `mode` is outside `[0, order)`. -/
def Tensor.unfold_checked (m : ℕ) (t : Tensor) : Except TensorError Tensor :=
  if m < t.shape.length then .ok (t.unfold m) else .error .InvalidModeError

/-- Modelled from the spec: `mode_n_product` validated at the call boundary —
fails with `InvalidModeError` for an out-of-range mode and with
`DimensionMismatchError` when `matrix.columns != shape[mode]`; all validation
happens before any result is produced. -/
def Tensor.mode_n_product_checked (M : Mat) (m : ℕ) (t : Tensor) :
    Except TensorError Tensor :=
  if m < t.shape.length then
    if M.cols = t.shape.getD m 0 then .ok (t.mode_n_product M m)
    else .error .DimensionMismatchError
  else .error .InvalidModeError

/-- `true` iff every entry of the list equals the first one (membership of the
hyper-diagonal of a cubic array). -/
def allEq : List ℕ → Bool
  | [] => true
  | x :: rest => rest.all (fun y => y = x)

/-- Modelled from the spec: the `TensorCPD` data model — an ordered sequence of
factor matrices, one per mode, and a weight vector for the super-diagonal
core. -/
structure TensorCPD where
  fmat : List Mat
  core_values : List ℤ
deriving DecidableEq

/-- Kryskal rank of a CP representation: the length of the weight vector. -/
def TensorCPD.rank (c : TensorCPD) : ℕ := c.core_values.length

/-- Order of a CP representation: the number of factor matrices. -/
def TensorCPD.order (c : TensorCPD) : ℕ := c.fmat.length

/-- Modelled from the spec: `TensorCPD.core` — a DenseTensor of shape
`(R, …, R)` (`N` times) with the weight vector placed on the hyper-diagonal and
all other entries zero. -/
def TensorCPD.core (c : TensorCPD) : Tensor :=
  let R := c.core_values.length
  let s := List.replicate c.fmat.length R
  { data := (List.range s.prod).map (fun q =>
      let ix := unrank s q
      if allEq ix then c.core_values.getD (ix.getD 0 0) 0 else 0)
    shape := s
    unfold_state := none }

/-- Modelled from the spec: constructing a `TensorCPD` fails with
`ShapeMismatchError` when some factor matrix's column count differs from the
weight-vector length; validation happens at construction time. -/
def TensorCPD.make (fmat : List Mat) (core_values : List ℤ) :
    Except TensorError TensorCPD :=
  if fmat.all (fun M => M.cols = core_values.length) then
    .ok { fmat := fmat, core_values := core_values }
  else .error .ShapeMismatchError

/-- Modelled from the spec: the `TensorTKD` data model — an ordered sequence of
factor matrices and an explicit dense core tensor. -/
structure TensorTKD where
  fmat : List Mat
  core : Tensor
deriving DecidableEq

/-- Modelled from the spec: constructing a `TensorTKD` fails with
`ShapeMismatchError` when the factor-matrix count differs from the core's order
or a factor matrix's column count differs from the core's size along its
mode. -/
def TensorTKD.make (fmat : List Mat) (core : Tensor) :
    Except TensorError TensorTKD :=
  if fmat.length = core.shape.length ∧
      (fmat.zip core.shape).all (fun p => p.1.cols = p.2) then
    .ok { fmat := fmat, core := core }
  else .error .ShapeMismatchError

/-- Modelled from the spec: the `TensorTT` data model — an ordered sequence of
3-way core tensors chained by rank indices. -/
structure TensorTT where
  cores : List Tensor
deriving DecidableEq

/-- Checks the tensor-train chain invariant: each core is 3-way with shape
`(r_pred, I_k, r_k)`, the first dimension agreeing with the running rank, and
the final rank is 1. -/
def ttChainOk : ℕ → List Tensor → Bool
  | r, [] => r = 1
  | r, G :: rest =>
    match G.shape with
    | [a, _, b] => a = r && ttChainOk b rest
    | _ => false

/-- Modelled from the spec: constructing a `TensorTT` fails with
`ShapeMismatchError` when adjacent cores disagree on the shared rank dimension
(boundary ranks must be 1). -/
def TensorTT.make (cores : List Tensor) : Except TensorError TensorTT :=
  if ttChainOk 1 cores then .ok { cores := cores } else .error .ShapeMismatchError

/-- Applies `mode_n_product` with each matrix of the list in turn, along the
modes `n, n+1, …` (the shared skeleton of CP and Tucker reconstruction). -/
def applyFmats : List Mat → ℕ → Tensor → Tensor
  | [], _, t => t
  | M :: rest, n, t => applyFmats rest (n + 1) (t.mode_n_product M n)

/-- Modelled from the spec: `TensorCPD.reconstruct` — the super-diagonal core
mode-multiplied by each factor matrix in mode order. -/
def TensorCPD.reconstruct (c : TensorCPD) : Tensor := applyFmats c.fmat 0 c.core

/-- Modelled from the spec: `TensorTKD.reconstruct` — the dense core
mode-multiplied by each factor matrix in mode order. -/
def TensorTKD.reconstruct (c : TensorTKD) : Tensor := applyFmats c.fmat 0 c.core

/-- A store of live `Tensor` instances, addressed by references; it models
Python object identity, so that the in-place (mutate-and-return-self) and the
copy-returning calling conventions can be distinguished. -/
def Store := List Tensor

/-- The tensor a reference designates in a store. -/
def Store.get (σ : Store) (r : ℕ) : Tensor := List.getD σ r default

/-- Commits a computed result according to the calling convention: the
in-place form overwrites the receiver `r` and returns `r` itself, the
copy-returning form appends a fresh instance and returns its (new)
reference. -/
def Store.commit (σ : Store) (inplace : Bool) (r : ℕ) (t : Tensor) : ℕ × Store :=
  if inplace then (r, List.set σ r t) else (List.length σ, List.append σ [t])

/-- Method call `unfold(mode, inplace)` on the instance at `r`: validation
first; on success the result is committed per the calling convention, on
failure the store is left unchanged. -/
def unfoldCall (inplace : Bool) (m r : ℕ) (σ : Store) :
    Except TensorError ℕ × Store :=
  match (σ.get r).unfold_checked m with
  | .error e => (.error e, σ)
  | .ok t => let (r', σ') := σ.commit inplace r t; (.ok r', σ')

/-- Method call `fold(inplace)` on the instance at `r` (total: folding an
already-folded tensor is a no-op by the chosen policy). -/
def foldCall (inplace : Bool) (r : ℕ) (σ : Store) :
    Except TensorError ℕ × Store :=
  let (r', σ') := σ.commit inplace r (σ.get r).fold; (.ok r', σ')

/-- Method call `mode_n_product(matrix, mode, inplace)` on the instance at
`r`: validation first; on success the result is committed per the calling
convention, on failure the store is left unchanged (no partial mutation). -/
def modeNProductCall (inplace : Bool) (M : Mat) (m r : ℕ) (σ : Store) :
    Except TensorError ℕ × Store :=
  match (σ.get r).mode_n_product_checked M m with
  | .error e => (.error e, σ)
  | .ok t => let (r', σ') := σ.commit inplace r t; (.ok r', σ')

/-- The matrix `np.arange(r * c).reshape(r, c)` used throughout the
notebooks. -/
def arangeMat (r c : ℕ) : Mat := ⟨r, c, (List.range (r * c)).map Int.ofNat⟩

/-- The `2×3×4` tensor `np.arange(24).reshape((2, 3, 4))` of the first
notebook. -/
def tensor234 : Tensor := ⟨(List.range 24).map Int.ofNat, [2, 3, 4], none⟩

/-- The CP representation of the second notebook: factor matrices
`A ∈ 2×4`, `B ∈ 4×4`, `C ∈ 5×4` (all `np.arange`) and weight vector
`[0, 1, 2, 3]`. -/
def cpdExample : TensorCPD :=
  ⟨[arangeMat 2 4, arangeMat 4 4, arangeMat 5 4], [0, 1, 2, 3]⟩

/-- The Tucker representation of the second notebook: factor matrices
`5×2`, `6×3`, `7×4` and dense core `np.arange(24).reshape(2, 3, 4)`. -/
def tkdExample : TensorTKD :=
  ⟨[arangeMat 5 2, arangeMat 6 3, arangeMat 7 4], tensor234⟩

/-! ## Arithmetic of the unfolding index bijection -/

theorem encode3_lt {P K Q a k b : ℕ} (ha : a < P) (hk : k < K) (hb : b < Q) :
    a * (K * Q) + k * Q + b < P * (K * Q) := by
  have h1 : k * Q + b < K * Q := by
    calc k * Q + b < k * Q + Q := by omega
    _ = (k + 1) * Q := by ring
    _ ≤ K * Q := Nat.mul_le_mul_right Q hk
  calc a * (K * Q) + k * Q + b = a * (K * Q) + (k * Q + b) := by ring
  _ < a * (K * Q) + K * Q := by omega
  _ = (a + 1) * (K * Q) := by ring
  _ ≤ P * (K * Q) := Nat.mul_le_mul_right (K * Q) ha

theorem decode3_1 {K Q k b : ℕ} (a : ℕ) (hk : k < K) (hb : b < Q) :
    (a * (K * Q) + k * Q + b) / (K * Q) = a := by
  have hkb : k * Q + b < K * Q := by
    calc k * Q + b < k * Q + Q := by omega
    _ = (k + 1) * Q := by ring
    _ ≤ K * Q := Nat.mul_le_mul_right Q hk
  have hpos : 0 < K * Q := Nat.lt_of_le_of_lt (Nat.zero_le _) hkb
  have : a * (K * Q) + k * Q + b = (K * Q) * a + (k * Q + b) := by ring
  rw [this, Nat.mul_add_div hpos, Nat.div_eq_of_lt hkb]
  omega

theorem decode3_2 {K Q k b : ℕ} (a : ℕ) (hk : k < K) (hb : b < Q) :
    (a * (K * Q) + k * Q + b) % (K * Q) / Q = k := by
  have hkb : k * Q + b < K * Q := by
    calc k * Q + b < k * Q + Q := by omega
    _ = (k + 1) * Q := by ring
    _ ≤ K * Q := Nat.mul_le_mul_right Q hk
  have h1 : a * (K * Q) + k * Q + b = (K * Q) * a + (k * Q + b) := by ring
  rw [h1, Nat.mul_add_mod, Nat.mod_eq_of_lt hkb]
  have h2 : k * Q + b = Q * k + b := by ring
  rw [h2, Nat.mul_add_div (Nat.zero_lt_of_lt hb), Nat.div_eq_of_lt hb]
  omega

theorem mod_encode3 {K Q a k b : ℕ} (hb : b < Q) :
    (a * (K * Q) + k * Q + b) % Q = b := by
  have : a * (K * Q) + k * Q + b = Q * (a * K + k) + b := by ring
  rw [this, Nat.mul_add_mod, Nat.mod_eq_of_lt hb]

theorem decomp3 (P Q p : ℕ) :
    p / (P * Q) * (P * Q) + p % (P * Q) / Q * Q + p % Q = p := by
  have h1 : p % (P * Q) % Q = p % Q := Nat.mod_mod_of_dvd p ⟨P, Nat.mul_comm P Q⟩
  have h2 : Q * (p % (P * Q) / Q) + p % (P * Q) % Q = p % (P * Q) := Nat.div_add_mod _ Q
  have h3 : (P * Q) * (p / (P * Q)) + p % (P * Q) = p := Nat.div_add_mod p (P * Q)
  have h4 : p / (P * Q) * (P * Q) = (P * Q) * (p / (P * Q)) := Nat.mul_comm _ _
  have h5 : p % (P * Q) / Q * Q = Q * (p % (P * Q) / Q) := Nat.mul_comm _ _
  omega

theorem unfoldIdx_bounds {P K Q p : ℕ} (hp : p < K * (P * Q)) :
    p % (P * Q) / Q < P ∧ p / (P * Q) < K ∧ p % Q < Q := by
  have hPQ : 0 < P * Q := by
    rcases Nat.eq_zero_or_pos (P * Q) with h | h
    · rw [h, Nat.mul_zero] at hp; omega
    · exact h
  have hQ : 0 < Q := by
    rcases Nat.eq_zero_or_pos Q with h | h
    · rw [h, Nat.mul_zero] at hPQ; omega
    · exact h
  refine ⟨?_, ?_, Nat.mod_lt p hQ⟩
  · have hlt : p % (P * Q) < P * Q := Nat.mod_lt p hPQ
    exact (Nat.div_lt_iff_lt_mul hQ).mpr hlt
  · exact (Nat.div_lt_iff_lt_mul hPQ).mpr hp

theorem unfoldIdx_lt {P K Q p : ℕ} (hp : p < K * (P * Q)) :
    unfoldIdx P K Q p < P * (K * Q) := by
  obtain ⟨ha, hk, hb⟩ := unfoldIdx_bounds hp
  exact encode3_lt ha hk hb

theorem unfoldIdx_invol {P K Q p : ℕ} (hp : p < K * (P * Q)) :
    unfoldIdx K P Q (unfoldIdx P K Q p) = p := by
  obtain ⟨ha, hk, hb⟩ := unfoldIdx_bounds hp
  show unfoldIdx K P Q (p % (P * Q) / Q * (K * Q) + p / (P * Q) * Q + p % Q) = p
  unfold unfoldIdx
  rw [decode3_1 _ hk hb, decode3_2 _ hk hb, mod_encode3 hb]
  exact decomp3 P Q p

/-! ## Elementary list lemmas -/

theorem getD_map_range {α : Type} (f : ℕ → α) (z : α) {n p : ℕ} (hp : p < n) :
    ((List.range n).map f).getD p z = f p := by
  have hlen : p < ((List.range n).map f).length := by
    rw [List.length_map, List.length_range]; exact hp
  rw [List.getD_eq_getElem _ _ hlen, List.getElem_map, List.getElem_range]

theorem prod_split (s : List ℕ) : ∀ m : ℕ, m < s.length →
    s.prod = (s.take m).prod * (s.getD m 1 * (s.drop (m + 1)).prod) := by
  induction s with
  | nil => intro m hm; simp at hm
  | cons x rest ih =>
    intro m hm
    cases m with
    | zero => simp [List.prod_cons]
    | succ m =>
      have hm' : m < rest.length := by simpa using hm
      have := ih m hm'
      simp only [List.take_succ_cons, List.getD_cons_succ, List.drop_succ_cons,
        List.prod_cons]
      rw [this]; ring

/-! ## The unfold / fold round trip -/

theorem fold_unfold (t : Tensor) (m : ℕ) (hm : m < t.order)
    (hwf : t.wf) (hst : t.unfold_state = none) :
    (t.unfold m).fold = t := by
  obtain ⟨d, s, u⟩ := t
  simp only [Tensor.order] at hm
  simp only [Tensor.wf] at hwf
  simp only at hst
  subst hst
  show Tensor.fold (Tensor.unfold m ⟨d, s, none⟩) = ⟨d, s, none⟩
  simp only [Tensor.unfold, Tensor.fold]
  refine congrArg (fun x => Tensor.mk x s none) ?_
  set P := (s.take m).prod with hP
  set K := s.getD m 1 with hK
  set Q := (s.drop (m + 1)).prod with hQ
  have hsplit : s.prod = P * (K * Q) := prod_split s m hm
  apply List.ext_getElem
  · simp [hwf]
  · intro q hq₁ hq₂
    have hq : q < P * (K * Q) := by
      rw [← hsplit]; simpa using hq₁
    have hlt : unfoldIdx K P Q q < K * (P * Q) := unfoldIdx_lt hq
    have hinv : unfoldIdx P K Q (unfoldIdx K P Q q) = q := unfoldIdx_invol hq
    simp only [List.getElem_map, List.getElem_range]
    rw [getD_map_range _ _ hlt, hinv]
    exact List.getD_eq_getElem d 0 hq₂

/-! ## Store-level helper lemmas -/

theorem store_get_commit {σ : Store} {ip : Bool} {r : ℕ} {t : Tensor}
    (hr : r < List.length σ) :
    (σ.commit ip r t).2.get (σ.commit ip r t).1 = t := by
  cases ip with
  | true =>
    show (List.set σ r t).getD r default = t
    rw [List.getD_eq_getElem _ _ (by simpa using hr), List.getElem_set_self]
  | false =>
    show (List.append σ [t]).getD (List.length σ) default = t
    have hlen : List.length σ < (List.append σ [t]).length := by
      simp
    rw [List.getD_eq_getElem _ _ hlen]
    exact List.getElem_concat_length σ t _ rfl _

theorem commit_fst_lt {σ : Store} {ip : Bool} {r : ℕ} {t : Tensor}
    (hr : r < List.length σ) :
    (σ.commit ip r t).1 < List.length (σ.commit ip r t).2 := by
  cases ip with
  | true => show r < (List.set σ r t).length; simpa using hr
  | false => show List.length σ < (List.append σ [t]).length; simp

/-- C1: for every tensor `X` in folded state and every valid mode `m`,
calling `unfold(mode=m)` and then `fold` on the result reproduces `X`'s
original shape, element values and unfold state exactly, under every
combination of the in-place and the copy-returning calling conventions. -/
theorem C1_fold_unfold_round_trip (σ : Store) (r m : ℕ) (ip₁ ip₂ : Bool)
    (hr : r < List.length σ) (hwf : (σ.get r).wf)
    (hst : (σ.get r).unfold_state = none) (hm : m < (σ.get r).order) :
    ∃ r₁ σ₁ r₂ σ₂,
      unfoldCall ip₁ m r σ = (.ok r₁, σ₁) ∧
      foldCall ip₂ r₁ σ₁ = (.ok r₂, σ₂) ∧
      σ₂.get r₂ = σ.get r := by
  set t := σ.get r with ht
  have hm' : m < t.shape.length := hm
  have hchk : t.unfold_checked m = .ok (t.unfold m) := by
    simp [Tensor.unfold_checked, hm']
  refine ⟨(σ.commit ip₁ r (t.unfold m)).1, (σ.commit ip₁ r (t.unfold m)).2,
    ?_, ?_, ?_, ?_, ?_⟩
  · exact ((σ.commit ip₁ r (t.unfold m)).2.commit ip₂
      (σ.commit ip₁ r (t.unfold m)).1 (t.unfold m).fold).1
  · exact ((σ.commit ip₁ r (t.unfold m)).2.commit ip₂
      (σ.commit ip₁ r (t.unfold m)).1 (t.unfold m).fold).2
  · simp [unfoldCall, hchk]
  · have hget : (σ.commit ip₁ r (t.unfold m)).2.get
        (σ.commit ip₁ r (t.unfold m)).1 = t.unfold m := store_get_commit hr
    simp [foldCall, hget]
  · have hlt : (σ.commit ip₁ r (t.unfold m)).1 <
        List.length (σ.commit ip₁ r (t.unfold m)).2 := commit_fst_lt hr
    rw [store_get_commit hlt]
    exact fold_unfold t m hm hwf hst

/-- C2: for the `2×3×4` tensor whose row-major flat contents are `0..23`,
unfolding along mode 0 yields a `2×12` matrix with first row `[0..11]` and
second row `[12..23]`, and unfolding along mode 2 yields a `4×6` matrix whose
first row is `[0, 4, 8, 12, 16, 20]` (columns ordered lexicographically over
the remaining modes in their original order). -/
theorem C2_unfold_fixtures :
    (tensor234.unfold 0).shape = [2, 12] ∧
    (tensor234.unfold 0).data =
      [0, 1, 2, 3, 4, 5, 6, 7, 8, 9, 10, 11,
       12, 13, 14, 15, 16, 17, 18, 19, 20, 21, 22, 23] ∧
    (tensor234.unfold 2).shape = [4, 6] ∧
    (tensor234.unfold 2).data.take 6 = [0, 4, 8, 12, 16, 20] := by
  refine ⟨by decide, by decide, by decide, by decide⟩

/-- Witness for C1: the round trip through mode 2 on the notebook's `2×3×4`
tensor, unfolding in place and folding into a copy. -/
theorem C1_witness :
    ∃ r₁ σ₁ r₂ σ₂,
      unfoldCall true 2 0 [tensor234] = (.ok r₁, σ₁) ∧
      foldCall false r₁ σ₁ = (.ok r₂, σ₂) ∧
      σ₂.get r₂ = Store.get [tensor234] 0 :=
  C1_fold_unfold_round_trip [tensor234] 0 2 true false (by decide)
    (show (Store.get [tensor234] 0).data.length
        = (Store.get [tensor234] 0).shape.prod by decide)
    (by decide) (by decide)

/-! ## Frobenius norm invariance -/

theorem sum_map_range (f : ℕ → ℤ) : ∀ n : ℕ,
    ((List.range n).map f).sum = ∑ i ∈ Finset.range n, f i := by
  intro n
  induction n with
  | zero => simp
  | succ n ih =>
    rw [List.range_succ, List.map_append, List.sum_append, Finset.sum_range_succ, ih]
    simp

theorem sumSq_eq_sum_range (d : List ℤ) :
    sumSq d = ∑ i ∈ Finset.range d.length, d.getD i 0 * d.getD i 0 := by
  induction d with
  | nil => simp [sumSq]
  | cons x d ih =>
    have hx : sumSq (x :: d) = x * x + sumSq d := by simp [sumSq]
    rw [hx, ih, List.length_cons, Finset.sum_range_succ']
    simp [Int.add_comm]

theorem sumSq_unfold (t : Tensor) (m : ℕ) (hm : m < t.order) (hwf : t.wf) :
    sumSq (t.unfold m).data = sumSq t.data := by
  obtain ⟨d, s, u⟩ := t
  simp only [Tensor.order] at hm
  simp only [Tensor.wf] at hwf
  set P := (s.take m).prod with hP
  set K := s.getD m 1 with hK
  set Q := (s.drop (m + 1)).prod with hQ
  have hsplit : s.prod = P * (K * Q) := prod_split s m hm
  have hdata : (Tensor.unfold m ⟨d, s, u⟩).data =
      (List.range (K * (P * Q))).map (fun p => d.getD (unfoldIdx P K Q p) 0) := rfl
  rw [hdata, sumSq, List.map_map, sum_map_range, sumSq_eq_sum_range, hwf, hsplit]
  refine Finset.sum_nbij' (fun p => unfoldIdx P K Q p) (fun q => unfoldIdx K P Q q)
    ?_ ?_ ?_ ?_ ?_
  · intro p hp
    rw [Finset.mem_range] at hp ⊢
    exact unfoldIdx_lt hp
  · intro q hq
    rw [Finset.mem_range] at hq ⊢
    exact unfoldIdx_lt hq
  · intro p hp
    rw [Finset.mem_range] at hp
    exact unfoldIdx_invol hp
  · intro q hq
    rw [Finset.mem_range] at hq
    exact unfoldIdx_invol hq
  · intro p hp
    rfl

/-- C9: for every tensor `X` and every valid mode `m`, the Frobenius norm of
`unfold(X, mode=m)` equals the Frobenius norm of `X` (the unfolding is a
bijective reindexing of the same elements). -/
theorem C9_frob_norm_unfold_invariant (t : Tensor) (m : ℕ)
    (hm : m < t.order) (hwf : t.wf) :
    (t.unfold m).frob_norm = t.frob_norm := by
  unfold Tensor.frob_norm
  rw [sumSq_unfold t m hm hwf]

/-- Witness for C9: the norm invariance holds for the notebook's `2×3×4`
tensor unfolded along mode 1. -/
theorem C9_witness : (tensor234.unfold 1).frob_norm = tensor234.frob_norm :=
  C9_frob_norm_unfold_invariant tensor234 1 (by decide)
    (show tensor234.data.length = tensor234.shape.prod by decide)

/-! ## Multi-index encoding and decoding -/

theorem getD_set_ne {i j : ℕ} (h : i ≠ j) (l : List ℕ) (a : ℕ) :
    (l.set i a).getD j 0 = l.getD j 0 := by
  rw [List.getD_eq_getElem?_getD, List.getD_eq_getElem?_getD, List.getElem?_set_ne h]

theorem set_getD_self {s : List ℕ} : ∀ {n : ℕ}, n < s.length →
    s.set n (s.getD n 0) = s := by
  induction s with
  | nil => intro n hn; simp at hn
  | cons x rest ih =>
    intro n hn
    cases n with
    | zero => simp
    | succ n =>
      have hn' : n < rest.length := by simpa using hn
      show x :: rest.set n (rest.getD n 0) = x :: rest
      rw [ih hn']

theorem forall₂_set_set {ix s : List ℕ} (h : List.Forall₂ (· < ·) ix s) :
    ∀ {i k v : ℕ}, k < v →
      List.Forall₂ (· < ·) (ix.set i k) (s.set i v) := by
  induction h with
  | nil => intro i k v _; simp
  | cons hxy hrest ih =>
    intro i k v hkv
    cases i with
    | zero => exact List.Forall₂.cons hkv hrest
    | succ i => exact List.Forall₂.cons hxy (ih hkv)

theorem forall₂_getD {ix s : List ℕ} (h : List.Forall₂ (· < ·) ix s) :
    ∀ {i : ℕ}, i < s.length → ix.getD i 0 < s.getD i 0 := by
  induction h with
  | nil => intro i hi; simp at hi
  | cons hxy hrest ih =>
    intro i hi
    cases i with
    | zero => simpa using hxy
    | succ i => exact ih (by simpa using hi)

theorem unrank_length (s : List ℕ) (q : ℕ) : (unrank s q).length = s.length := by
  induction s generalizing q with
  | nil => rfl
  | cons x rest ih => simp [unrank, ih]

theorem unrank_valid {s : List ℕ} : ∀ {q : ℕ}, q < s.prod →
    List.Forall₂ (· < ·) (unrank s q) s := by
  induction s with
  | nil => intro q _; exact List.Forall₂.nil
  | cons x rest ih =>
    intro q hq
    rw [List.prod_cons] at hq
    have hrest : 0 < rest.prod := by
      rcases Nat.eq_zero_or_pos rest.prod with h | h
      · rw [h, Nat.mul_zero] at hq; omega
      · exact h
    refine List.Forall₂.cons ?_ (ih (Nat.mod_lt q hrest))
    exact (Nat.div_lt_iff_lt_mul hrest).mpr hq

theorem rankIdx_lt {ix s : List ℕ} (h : List.Forall₂ (· < ·) ix s) :
    rankIdx s ix < s.prod := by
  induction h with
  | nil => simp [rankIdx]
  | @cons i x ix' s' hix hrest ih =>
    rw [List.prod_cons]
    show i * s'.prod + rankIdx s' ix' < x * s'.prod
    calc i * s'.prod + rankIdx s' ix' < i * s'.prod + s'.prod := by omega
    _ = (i + 1) * s'.prod := by ring
    _ ≤ x * s'.prod := Nat.mul_le_mul_right s'.prod hix

theorem unrank_rankIdx {ix s : List ℕ} (h : List.Forall₂ (· < ·) ix s) :
    unrank s (rankIdx s ix) = ix := by
  induction h with
  | nil => rfl
  | @cons i x ix' s' hix hrest ih =>
    have hr : rankIdx s' ix' < s'.prod := rankIdx_lt hrest
    have hpos : 0 < s'.prod := Nat.lt_of_le_of_lt (Nat.zero_le _) hr
    show unrank (x :: s') (i * s'.prod + rankIdx s' ix') = i :: ix'
    rw [unrank]
    have h1 : i * s'.prod + rankIdx s' ix' = s'.prod * i + rankIdx s' ix' := by ring
    rw [h1, Nat.mul_add_div hpos, Nat.div_eq_of_lt hr, Nat.mul_add_mod,
      Nat.mod_eq_of_lt hr, Nat.add_zero, ih]

/-! ## Pointwise description of the mode-n product -/

theorem modeN_data (t : Tensor) (M : Mat) (m : ℕ) :
    (t.mode_n_product M m).data =
      (List.range (t.shape.set m M.rows).prod).map (fun q =>
        ∑ k ∈ Finset.range (t.shape.getD m 0),
          M.entry ((unrank (t.shape.set m M.rows) q).getD m 0) k *
            t.data.getD (rankIdx t.shape ((unrank (t.shape.set m M.rows) q).set m k)) 0) :=
  rfl

theorem modeN_shape (t : Tensor) (M : Mat) (m : ℕ) :
    (t.mode_n_product M m).shape = t.shape.set m M.rows := rfl

theorem modeN_state (t : Tensor) (M : Mat) (m : ℕ) :
    (t.mode_n_product M m).unfold_state = none := rfl

theorem modeN_entry (t : Tensor) (M : Mat) (m : ℕ) {jx : List ℕ}
    (hjx : List.Forall₂ (· < ·) jx (t.shape.set m M.rows)) :
    (t.mode_n_product M m).data.getD (rankIdx (t.shape.set m M.rows) jx) 0 =
      ∑ k ∈ Finset.range (t.shape.getD m 0),
        M.entry (jx.getD m 0) k * t.data.getD (rankIdx t.shape (jx.set m k)) 0 := by
  rw [modeN_data, getD_map_range _ _ (rankIdx_lt hjx), unrank_rankIdx hjx]

/-- C3: for every tensor `X`, distinct valid modes `m ≠ n` and compatible
matrices `A` (for mode `m`) and `B` (for mode `n`), the mode-n products applied
in the two orders agree element-wise:
`mode_n_product(mode_n_product(X, A, m), B, n) =
 mode_n_product(mode_n_product(X, B, n), A, m)`. -/
theorem C3_mode_n_product_comm (t : Tensor) (A B : Mat) (m n : ℕ)
    (hmn : m ≠ n) (hm : m < t.order) (hn : n < t.order)
    (hA : A.cols = t.shape.getD m 0) (hB : B.cols = t.shape.getD n 0) :
    (t.mode_n_product A m).mode_n_product B n
      = (t.mode_n_product B n).mode_n_product A m := by
  have hm' : m < t.shape.length := hm
  have hn' : n < t.shape.length := hn
  have hshape : (t.shape.set m A.rows).set n B.rows
      = (t.shape.set n B.rows).set m A.rows := List.set_comm _ _ _ hmn
  have hXn : ((t.shape.set n B.rows).set m A.rows).set n (t.shape.getD n 0)
      = t.shape.set m A.rows := by
    rw [List.set_comm _ _ _ hmn, List.set_set, set_getD_self hn']
  have hXm : ((t.shape.set n B.rows).set m A.rows).set m (t.shape.getD m 0)
      = t.shape.set n B.rows := by
    rw [List.set_set]
    have hget : t.shape.getD m 0 = (t.shape.set n B.rows).getD m 0 :=
      (getD_set_ne (Ne.symm hmn) t.shape B.rows).symm
    rw [hget, set_getD_self (by simpa using hm')]
  ext1
  · rw [modeN_data (t.mode_n_product A m) B n, modeN_data (t.mode_n_product B n) A m,
      modeN_shape t A m, modeN_shape t B n, hshape,
      getD_set_ne hmn t.shape A.rows, getD_set_ne (Ne.symm hmn) t.shape B.rows]
    apply List.map_congr_left
    intro q hq
    rw [List.mem_range] at hq
    set ix := unrank ((t.shape.set n B.rows).set m A.rows) q with hix_def
    have hix : List.Forall₂ (· < ·) ix ((t.shape.set n B.rows).set m A.rows) :=
      unrank_valid hq
    trans (∑ k ∈ Finset.range (t.shape.getD n 0),
        ∑ l ∈ Finset.range (t.shape.getD m 0),
          B.entry (ix.getD n 0) k *
            (A.entry (ix.getD m 0) l *
              t.data.getD (rankIdx t.shape ((ix.set n k).set m l)) 0))
    · apply Finset.sum_congr rfl
      intro k hk
      rw [Finset.mem_range] at hk
      have hjx : List.Forall₂ (· < ·) (ix.set n k) (t.shape.set m A.rows) := by
        have h1 := forall₂_set_set hix (i := n) (k := k) (v := t.shape.getD n 0) hk
        rwa [hXn] at h1
      rw [modeN_entry t A m hjx, Finset.mul_sum]
      apply Finset.sum_congr rfl
      intro l hl
      rw [getD_set_ne (Ne.symm hmn) ix k]
    · rw [Finset.sum_comm]
      apply Finset.sum_congr rfl
      intro l hl
      rw [Finset.mem_range] at hl
      have hjx' : List.Forall₂ (· < ·) (ix.set m l) (t.shape.set n B.rows) := by
        have h1 := forall₂_set_set hix (i := m) (k := l) (v := t.shape.getD m 0) hl
        rwa [hXm] at h1
      rw [modeN_entry t B n hjx', Finset.mul_sum, getD_set_ne hmn ix l]
      apply Finset.sum_congr rfl
      intro k hk
      rw [List.set_comm k l ix (Ne.symm hmn)]
      ring
  · simp only [modeN_shape]
    exact hshape
  · rfl

/-- Witness for C3: commuting the notebook's mode-1 product by a `5×3` matrix
with the mode-2 product by a `6×4` matrix on the `2×3×4` tensor. -/
theorem C3_witness :
    (tensor234.mode_n_product (arangeMat 5 3) 1).mode_n_product (arangeMat 6 4) 2
      = (tensor234.mode_n_product (arangeMat 6 4) 2).mode_n_product (arangeMat 5 3) 1 :=
  C3_mode_n_product_comm tensor234 (arangeMat 5 3) (arangeMat 6 4) 1 2
    (by decide) (by decide) (by decide) (by decide) (by decide)

/-! ## The fusion law for a repeated mode -/

theorem getD_set_self {l : List ℕ} {m v : ℕ} (hm : m < l.length) :
    (l.set m v).getD m 0 = v := by
  rw [List.getD_eq_getElem _ _ (by simpa using hm), List.getElem_set_self]

theorem encode2_lt {R C j l : ℕ} (hj : j < R) (hl : l < C) : j * C + l < R * C := by
  calc j * C + l < j * C + C := by omega
  _ = (j + 1) * C := by ring
  _ ≤ R * C := Nat.mul_le_mul_right C hj

theorem matmul_entry (B A : Mat) {j l : ℕ} (hj : j < B.rows) (hl : l < A.cols) :
    (matmul B A).entry j l = ∑ k ∈ Finset.range B.cols, B.entry j k * A.entry k l := by
  have hpos : 0 < A.cols := Nat.zero_lt_of_lt hl
  have hidx : j * A.cols + l < B.rows * A.cols := encode2_lt hj hl
  have hdiv : (j * A.cols + l) / A.cols = j := by
    rw [show j * A.cols + l = A.cols * j + l by ring, Nat.mul_add_div hpos,
      Nat.div_eq_of_lt hl]
    omega
  have hmod : (j * A.cols + l) % A.cols = l := by
    rw [show j * A.cols + l = A.cols * j + l by ring, Nat.mul_add_mod,
      Nat.mod_eq_of_lt hl]
  show (matmul B A).data.getD (j * A.cols + l) 0 = _
  rw [show (matmul B A).data = (List.range (B.rows * A.cols)).map (fun p =>
      ∑ k ∈ Finset.range B.cols, B.entry (p / A.cols) k * A.entry k (p % A.cols))
    from rfl]
  rw [getD_map_range _ _ hidx]
  rw [hdiv, hmod]

/-- C4: for every tensor `X`, valid mode `m`, and matrices `A` (columns =
`shape[m]`) and `B` (columns = `A`'s row count), applying `mode_n_product`
with `A` and then with `B`, both on mode `m`, equals the single
`mode_n_product` of `X` with the matrix product `B·A` on mode `m`. -/
theorem C4_mode_n_product_fusion (t : Tensor) (A B : Mat) (m : ℕ)
    (hm : m < t.order) (hA : A.cols = t.shape.getD m 0) (hB : B.cols = A.rows) :
    (t.mode_n_product A m).mode_n_product B m
      = t.mode_n_product (matmul B A) m := by
  have hm' : m < t.shape.length := hm
  have hrows : (matmul B A).rows = B.rows := rfl
  ext1
  · rw [modeN_data (t.mode_n_product A m) B m, modeN_data t (matmul B A) m,
      modeN_shape t A m, List.set_set, hrows, getD_set_self hm']
    apply List.map_congr_left
    intro q hq
    rw [List.mem_range] at hq
    set ix := unrank (t.shape.set m B.rows) q with hix_def
    have hix : List.Forall₂ (· < ·) ix (t.shape.set m B.rows) := unrank_valid hq
    have hixlen : m < ix.length := by
      rw [List.Forall₂.length_eq hix, List.length_set]
      exact hm'
    have hj : ix.getD m 0 < B.rows := by
      have := forall₂_getD hix (i := m) (by simpa using hm')
      rwa [getD_set_self hm'] at this
    trans (∑ k ∈ Finset.range A.rows,
        ∑ l ∈ Finset.range (t.shape.getD m 0),
          B.entry (ix.getD m 0) k *
            (A.entry k l * t.data.getD (rankIdx t.shape (ix.set m l)) 0))
    · apply Finset.sum_congr rfl
      intro k hk
      rw [Finset.mem_range] at hk
      have hjx : List.Forall₂ (· < ·) (ix.set m k) (t.shape.set m A.rows) := by
        have h1 := forall₂_set_set hix (i := m) (k := k) (v := A.rows) hk
        rwa [List.set_set] at h1
      rw [modeN_entry t A m hjx, Finset.mul_sum]
      apply Finset.sum_congr rfl
      intro l hl
      rw [getD_set_self hixlen, List.set_set]
    · rw [Finset.sum_comm]
      apply Finset.sum_congr rfl
      intro l hl
      rw [Finset.mem_range] at hl
      have hl' : l < A.cols := by rw [hA]; exact hl
      rw [matmul_entry B A hj hl', Finset.sum_mul, hB]
      apply Finset.sum_congr rfl
      intro k hk
      ring
  · simp only [modeN_shape]
    rw [List.set_set, hrows]
  · rfl

/-- Witness for C4: fusing the notebook's mode-1 products by a `5×3` and then
a `7×5` matrix on the `2×3×4` tensor. -/
theorem C4_witness :
    (tensor234.mode_n_product (arangeMat 5 3) 1).mode_n_product (arangeMat 7 5) 1
      = tensor234.mode_n_product (matmul (arangeMat 7 5) (arangeMat 5 3)) 1 :=
  C4_mode_n_product_fusion tensor234 (arangeMat 5 3) (arangeMat 7 5) 1
    (by decide) (by decide) (by decide)

/-! ## The CP core and its hyper-diagonal -/

/-- C5: constructing a CP representation from factor matrices `A` (2×4),
`B` (4×4), `C` (5×4) and weight vector `[0,1,2,3]` yields a core that is a
`4×4×4` tensor equal to zero everywhere except on the hyper-diagonal, where
`core[r,r,r] = r`; in general the derived core has shape `(R,…,R)` (`N` times)
with the weight vector on the hyper-diagonal and all other entries zero. -/
theorem C5_cpd_core_superdiagonal :
    (cpdExample.core.shape = [4, 4, 4] ∧
      ∀ i j k : Fin 4,
        cpdExample.core.data.getD (rankIdx [4, 4, 4] [i.val, j.val, k.val]) 0
          = if i.val = j.val ∧ j.val = k.val then (i.val : ℤ) else 0) ∧
    ∀ (c : TensorCPD) (ix : List ℕ),
      List.Forall₂ (· < ·) ix (List.replicate c.fmat.length c.core_values.length) →
      c.core.shape = List.replicate c.fmat.length c.core_values.length ∧
      c.core.data.getD
          (rankIdx (List.replicate c.fmat.length c.core_values.length) ix) 0
        = if allEq ix then c.core_values.getD (ix.getD 0 0) 0 else 0 := by
  refine ⟨⟨by decide, by decide⟩, ?_⟩
  intro c ix hix
  refine ⟨rfl, ?_⟩
  have hlt := rankIdx_lt hix
  show ((List.range (List.replicate c.fmat.length c.core_values.length).prod).map
      (fun q =>
        if allEq (unrank (List.replicate c.fmat.length c.core_values.length) q) then
          c.core_values.getD
            ((unrank (List.replicate c.fmat.length c.core_values.length) q).getD 0 0) 0
        else 0)).getD
      (rankIdx (List.replicate c.fmat.length c.core_values.length) ix) 0 = _
  rw [getD_map_range _ _ hlt, unrank_rankIdx hix]

/-- Witness for C5: the notebook's CP core carries weight 2 at multi-index
`(2, 2, 2)`. -/
theorem C5_witness :
    cpdExample.core.data.getD
      (rankIdx (List.replicate cpdExample.fmat.length cpdExample.core_values.length)
        [2, 2, 2]) 0 = 2 := by
  rw [(C5_cpd_core_superdiagonal.2 cpdExample [2, 2, 2] (by decide)).2]
  decide

/-! ## Reconstruction shapes -/

theorem take_set_succ {l : List ℕ} {n v : ℕ} (hn : n < l.length) :
    (l.set n v).take (n + 1) = l.take n ++ [v] := by
  have hlen : (l.take n).length = n := by
    rw [List.length_take]
    omega
  rw [List.set_eq_take_cons_drop v hn, List.take_append_eq_append_take,
    List.take_of_length_le (by omega), hlen]
  have h1 : n + 1 - n = 1 := by omega
  rw [h1]
  simp

theorem applyFmats_shape : ∀ (fs : List Mat) (n : ℕ) (t : Tensor),
    t.shape.length = n + fs.length →
    (applyFmats fs n t).shape = t.shape.take n ++ fs.map Mat.rows := by
  intro fs
  induction fs with
  | nil =>
    intro n t h
    simp only [List.length_nil, Nat.add_zero] at h
    show t.shape = t.shape.take n ++ []
    rw [List.append_nil, List.take_of_length_le (Nat.le_of_eq h)]
  | cons M rest ih =>
    intro n t h
    show (applyFmats rest (n + 1) (t.mode_n_product M n)).shape = _
    have hn : n < t.shape.length := by
      rw [h]
      simp only [List.length_cons]
      omega
    have hlen : (t.mode_n_product M n).shape.length = (n + 1) + rest.length := by
      rw [modeN_shape, List.length_set, h]
      simp only [List.length_cons]
      omega
    rw [ih (n + 1) _ hlen, modeN_shape, take_set_succ hn]
    simp

/-- C6: for every CP or Tucker representation (with, for Tucker, one factor
matrix per core mode), `reconstruct` produces a tensor whose shape along each
mode `n` equals the row count of the `n`-th factor matrix; in this functional
model `reconstruct` is a pure function of the representation, hence
deterministic and mutation-free. -/
theorem C6_reconstruct_shape :
    (∀ c : TensorCPD, c.reconstruct.shape = c.fmat.map Mat.rows) ∧
    (∀ c : TensorTKD, c.core.shape.length = c.fmat.length →
      c.reconstruct.shape = c.fmat.map Mat.rows) := by
  constructor
  · intro c
    have h : c.core.shape.length = 0 + c.fmat.length := by
      show (List.replicate c.fmat.length c.core_values.length).length = _
      simp
    rw [TensorCPD.reconstruct, applyFmats_shape c.fmat 0 c.core h]
    simp
  · intro c h
    have h' : c.core.shape.length = 0 + c.fmat.length := by simpa using h
    rw [TensorTKD.reconstruct, applyFmats_shape c.fmat 0 c.core h']
    simp

/-- Witness for C6: the notebook's Tucker example reconstructs to shape
`(5, 6, 7)`, and its CP example to shape `(2, 4, 5)`. -/
theorem C6_witness :
    tkdExample.reconstruct.shape = [5, 6, 7] ∧
    cpdExample.reconstruct.shape = [2, 4, 5] := by
  constructor
  · rw [C6_reconstruct_shape.2 tkdExample (by decide)]
    decide
  · rw [C6_reconstruct_shape.1 cpdExample]
    decide

/-! ## Construction-time shape validation -/

theorem ttChainOk_adj_mismatch : ∀ (cores : List Tensor) (r i : ℕ),
    i + 1 < cores.length →
    (cores.getD i default).shape.getD 2 0
      ≠ (cores.getD (i + 1) default).shape.getD 0 0 →
    ttChainOk r cores = false := by
  intro cores
  induction cores with
  | nil => intro r i hi _; simp at hi
  | cons G rest ih =>
    intro r i hi hne
    cases i with
    | zero =>
      match hrest : rest, hi with
      | G' :: rest', _ =>
        simp only [List.getD_cons_zero, List.getD_cons_succ] at hne
        rcases hsG : G.shape with _ | ⟨a, _ | ⟨x, _ | ⟨b, _ | ⟨c, tl⟩⟩⟩⟩ <;>
          simp only [ttChainOk, hsG]
        rcases hsG' : G'.shape with _ | ⟨a', _ | ⟨x', _ | ⟨b', _ | ⟨c', tl'⟩⟩⟩⟩ <;>
          simp only [ttChainOk, hsG'] <;> simp_all
        intro _ h
        exact absurd h.symm hne
    | succ i =>
      have hi' : i + 1 < rest.length := by simpa using hi
      have hne' : (rest.getD i default).shape.getD 2 0
          ≠ (rest.getD (i + 1) default).shape.getD 0 0 := by
        simpa using hne
      rcases hsG : G.shape with _ | ⟨a, _ | ⟨x, _ | ⟨b, _ | ⟨c, tl⟩⟩⟩⟩ <;>
        simp only [ttChainOk, hsG]
      rw [ih b i hi' hne']
      simp

/-- C7: constructing any of the three factorized representations with
inconsistent shapes fails with `ShapeMismatchError` at construction time:
for CP, some factor matrix's column count differs from the weight-vector
length; for Tucker, some factor matrix's column count differs from the core's
size along its mode; for Train, some pair of adjacent cores disagrees on the
shared rank dimension. -/
theorem C7_construction_shape_mismatch :
    (∀ (fmat : List Mat) (cv : List ℤ),
      (∃ M ∈ fmat, M.cols ≠ cv.length) →
      TensorCPD.make fmat cv = .error .ShapeMismatchError) ∧
    (∀ (fmat : List Mat) (core : Tensor),
      (∃ p ∈ fmat.zip core.shape, p.1.cols ≠ p.2) →
      TensorTKD.make fmat core = .error .ShapeMismatchError) ∧
    (∀ (cores : List Tensor) (i : ℕ),
      i + 1 < cores.length →
      (cores.getD i default).shape.getD 2 0
        ≠ (cores.getD (i + 1) default).shape.getD 0 0 →
      TensorTT.make cores = .error .ShapeMismatchError) := by
  refine ⟨?_, ?_, ?_⟩
  · rintro fmat cv ⟨M, hM, hne⟩
    have hall : fmat.all (fun M => M.cols = cv.length) = false := by
      rw [List.all_eq_false]
      exact ⟨M, hM, by simpa using hne⟩
    simp [TensorCPD.make, hall]
  · rintro fmat core ⟨p, hp, hne⟩
    have hall : (fmat.zip core.shape).all (fun p => p.1.cols = p.2) = false := by
      rw [List.all_eq_false]
      exact ⟨p, hp, by simpa using hne⟩
    have hcond : ¬(fmat.length = core.shape.length ∧
        ((fmat.zip core.shape).all (fun p => p.1.cols = p.2) = true)) := by
      rintro ⟨-, h2⟩
      rw [hall] at h2
      exact Bool.false_ne_true h2
    simp only [TensorTKD.make]
    rw [if_neg]
    intro hcon
    exact hcond ⟨hcon.1, hcon.2⟩
  · intro cores i hi hne
    have hchain : ttChainOk 1 cores = false := ttChainOk_adj_mismatch cores 1 i hi hne
    simp [TensorTT.make, hchain]

/-- Witness for C7: a rank-4 weight vector with a 3-column factor matrix, a
Tucker factor matrix with 3 columns against a core of size 2 along its mode,
and two train cores whose shared rank dimensions are 3 and 2. -/
theorem C7_witness :
    TensorCPD.make [arangeMat 2 3] [0, 1, 2, 3] = .error .ShapeMismatchError ∧
    TensorTKD.make [arangeMat 5 3] tensor234 = .error .ShapeMismatchError ∧
    TensorTT.make [⟨[], [1, 2, 3], none⟩, ⟨[], [2, 2, 1], none⟩]
      = .error .ShapeMismatchError := by
  refine ⟨?_, ?_, ?_⟩
  · exact C7_construction_shape_mismatch.1 [arangeMat 2 3] [0, 1, 2, 3]
      ⟨arangeMat 2 3, by decide, by decide⟩
  · exact C7_construction_shape_mismatch.2.1 [arangeMat 5 3] tensor234
      ⟨(arangeMat 5 3, 2), by decide, by decide⟩
  · exact C7_construction_shape_mismatch.2.2
      [⟨[], [1, 2, 3], none⟩, ⟨[], [2, 2, 1], none⟩] 0 (by decide) (by decide)

/-! ## Error behaviour of the mode-n product call -/

/-- C8: for every live tensor `X` and valid mode `m`, a `mode_n_product` call
fails with `DimensionMismatchError` exactly when the matrix's column count
differs from `shape[m]`, and a failed call leaves the store — hence the
receiver tensor — completely unchanged. -/
theorem C8_mode_n_product_dimension_error (σ : Store) (r m : ℕ) (ip : Bool)
    (M : Mat) (hm : m < (σ.get r).order) :
    ((modeNProductCall ip M m r σ).1 = .error .DimensionMismatchError
        ↔ M.cols ≠ (σ.get r).shape.getD m 0) ∧
    (M.cols ≠ (σ.get r).shape.getD m 0 → (modeNProductCall ip M m r σ).2 = σ) := by
  have hm' : m < (σ.get r).shape.length := hm
  by_cases hc : M.cols = (σ.get r).shape.getD m 0
  · have hchk : (σ.get r).mode_n_product_checked M m
        = .ok ((σ.get r).mode_n_product M m) := by
      unfold Tensor.mode_n_product_checked
      rw [if_pos hm', if_pos hc]
    refine ⟨⟨?_, fun h => absurd hc h⟩, fun h => absurd hc h⟩
    intro h
    simp [modeNProductCall, hchk] at h
  · have hchk : (σ.get r).mode_n_product_checked M m
        = .error .DimensionMismatchError := by
      unfold Tensor.mode_n_product_checked
      rw [if_pos hm', if_neg hc]
    have hcall : modeNProductCall ip M m r σ = (.error .DimensionMismatchError, σ) := by
      simp [modeNProductCall, hchk]
    rw [hcall]
    exact ⟨⟨fun _ => hc, fun _ => rfl⟩, fun _ => rfl⟩

/-- Witness for C8: multiplying the `2×3×4` tensor along mode 0 by a matrix
with 3 columns fails with `DimensionMismatchError` and leaves the store
unchanged. -/
theorem C8_witness :
    (modeNProductCall true (arangeMat 2 3) 0 0 [tensor234]).1
        = .error .DimensionMismatchError ∧
    (modeNProductCall true (arangeMat 2 3) 0 0 [tensor234]).2 = [tensor234] := by
  constructor
  · exact (C8_mode_n_product_dimension_error [tensor234] 0 0 true (arangeMat 2 3)
      (by decide)).1.mpr (by decide)
  · exact (C8_mode_n_product_dimension_error [tensor234] 0 0 true (arangeMat 2 3)
      (by decide)).2 (by decide)

/-! ## Object identity of the calling conventions -/

/-- C10: with valid arguments, the mutating (default, in-place) forms of
`unfold`, `fold` and `mode_n_product` return the receiver reference itself
(so mutating calls can be chained), while the `inplace=False` forms return a
reference distinct from the receiver. -/
theorem C10_inplace_identity (σ : Store) (r m : ℕ) (M : Mat)
    (hr : r < List.length σ) (hm : m < (σ.get r).order)
    (hM : M.cols = (σ.get r).shape.getD m 0) :
    ((unfoldCall true m r σ).1 = .ok r ∧
      ∀ r', (unfoldCall false m r σ).1 = .ok r' → r' ≠ r) ∧
    ((foldCall true r σ).1 = .ok r ∧
      ∀ r', (foldCall false r σ).1 = .ok r' → r' ≠ r) ∧
    ((modeNProductCall true M m r σ).1 = .ok r ∧
      ∀ r', (modeNProductCall false M m r σ).1 = .ok r' → r' ≠ r) := by
  have hm' : m < (σ.get r).shape.length := hm
  have hchku : (σ.get r).unfold_checked m = .ok ((σ.get r).unfold m) := by
    simp [Tensor.unfold_checked, hm']
  have hchkm : (σ.get r).mode_n_product_checked M m
      = .ok ((σ.get r).mode_n_product M m) := by
    simp [Tensor.mode_n_product_checked, hm', hM]
  refine ⟨⟨?_, ?_⟩, ⟨?_, ?_⟩, ⟨?_, ?_⟩⟩
  · simp [unfoldCall, hchku, Store.commit]
  · intro r' h
    simp [unfoldCall, hchku, Store.commit] at h
    omega
  · simp [foldCall, Store.commit]
  · intro r' h
    simp [foldCall, Store.commit] at h
    omega
  · simp [modeNProductCall, hchkm, Store.commit]
  · intro r' h
    simp [modeNProductCall, hchkm, Store.commit] at h
    omega

/-- Witness for C10: on a one-tensor store, the in-place mode-1 product by a
`5×3` matrix returns reference 0 (the receiver). -/
theorem C10_witness :
    (modeNProductCall true (arangeMat 5 3) 1 0 [tensor234]).1 = .ok 0 :=
  (C10_inplace_identity [tensor234] 0 1 (arangeMat 5 3)
    (by decide) (by decide) (by decide)).2.2.1

end Hottbox
